import Mathlib

/-
Verification of the segment tree for interval variances
(segment_tree_variance.py, duplicated in arbol_segmentos.py).

The numeric values are modelled by rationals, i.e. the exact arithmetic the
specification refers to; element counts are natural numbers.  The Python node
list self.tree (length 4 * n) is a List Node; reads are List.getD with the
empty node as default and writes are List.set, which is adequate because every
index the operations touch is proved to be strictly below 4 * n (claim C8).
Raising IndexError / ValueError is modelled by Except.error; both checks
happen in the source before any state is written, so the error branches
return no state.
-/

set_option maxHeartbeats 1000000

/-- Class Node of segment_tree_variance.py: suma is the sum of the elements
of the interval, suma_cuadrados the sum of their squares and count the number
of elements. -/
structure Node where
  suma : ℚ
  suma_cuadrados : ℚ
  count : ℕ
deriving DecidableEq, Repr

/-- Node() with its default arguments: the empty aggregate (0, 0, 0). -/
def Node.empty : Node := ⟨0, 0, 0⟩

/-- The leaf aggregate Node(suma=value, suma_cuadrados=value*value, count=1)
that _build and _update_recursive construct inline at a leaf. -/
def leafNode (value : ℚ) : Node := ⟨value, value * value, 1⟩

/-- Node.get_variance: 0 when count is 0, otherwise the compact formula
max(0, E[X^2] - E[X]^2) with the same intermediate quotients as the source. -/
def Node.get_variance (nd : Node) : ℚ :=
  if nd.count = 0 then 0
  else
    let media := nd.suma / (nd.count : ℚ)
    let media_cuadrados := nd.suma_cuadrados / (nd.count : ℚ)
    max 0 (media_cuadrados - media * media)

/-- Node.get_mean: 0 when count is 0, otherwise suma / count. -/
def Node.get_mean (nd : Node) : ℚ :=
  if nd.count = 0 then 0 else nd.suma / (nd.count : ℚ)

/-- SegmentTreeVariance._merge: fieldwise sum of the two child aggregates. -/
def mergeNodes (left_node right_node : Node) : Node :=
  ⟨left_node.suma + right_node.suma,
   left_node.suma_cuadrados + right_node.suma_cuadrados,
   left_node.count + right_node.count⟩

/-- Read self.tree[i].  Every read index is in bounds (claim C8); out of
range the empty node is returned as a harmless default. -/
def getNode (tree : List Node) (i : ℕ) : Node := tree.getD i Node.empty

/-- Write self.tree[i] := v.  Every written index is in bounds (claim C8);
List.set ignores an out-of-range write. -/
def setNode (tree : List Node) (i : ℕ) (v : Node) : List Node := tree.set i v

/-- SegmentTreeVariance._build: builds the subtree rooted at heap position
node_idx over the interval [left, right] of arr.  The constructor only calls
it with left ≤ right and the recursion preserves that, so the right < left
branch (which would not terminate in Python) is given as returning the tree
unchanged to make the function total; it is never reached from mkTree. -/
def buildRec (arr : List ℚ) (tree : List Node) (node_idx left right : ℕ) : List Node :=
  if h1 : left = right then
    setNode tree node_idx (leafNode (arr.getD left 0))
  else if h2 : right < left then tree
  else
    let t1 := buildRec arr tree (2 * node_idx + 1) left ((left + right) / 2)
    let t2 := buildRec arr t1 (2 * node_idx + 2) ((left + right) / 2 + 1) right
    setNode t2 node_idx
      (mergeNodes (getNode t2 (2 * node_idx + 1)) (getNode t2 (2 * node_idx + 2)))
termination_by right - left
decreasing_by
  all_goals omega

/-- SegmentTreeVariance._update_recursive: rewrites the leaf holding
target_idx and recomputes every node on the path back to node_idx.  As in
buildRec, the right < left branch is unreachable padding for totality. -/
def updateRec (tree : List Node) (node_idx left right target_idx : ℕ)
    (new_value : ℚ) : List Node :=
  if h1 : left = right then
    setNode tree node_idx (leafNode new_value)
  else if h2 : right < left then tree
  else
    let t1 :=
      if target_idx ≤ (left + right) / 2 then
        updateRec tree (2 * node_idx + 1) left ((left + right) / 2) target_idx new_value
      else
        updateRec tree (2 * node_idx + 2) ((left + right) / 2 + 1) right target_idx new_value
    setNode t1 node_idx
      (mergeNodes (getNode t1 (2 * node_idx + 1)) (getNode t1 (2 * node_idx + 2)))
termination_by right - left
decreasing_by
  all_goals omega

/-- SegmentTreeVariance._query_recursive: no overlap yields the empty node,
total overlap yields the stored node, partial overlap recurses into both
children and merges.  The partial branch forces left < right, so the
recursion terminates with no extra padding. -/
def queryRec (tree : List Node) (node_idx left right query_left query_right : ℕ) : Node :=
  if h1 : query_right < left ∨ right < query_left then Node.empty
  else if h2 : query_left ≤ left ∧ right ≤ query_right then getNode tree node_idx
  else
    mergeNodes
      (queryRec tree (2 * node_idx + 1) left ((left + right) / 2) query_left query_right)
      (queryRec tree (2 * node_idx + 2) ((left + right) / 2 + 1) right query_left query_right)
termination_by right - left
decreasing_by
  all_goals omega

/-- State of a SegmentTreeVariance object: the backing array copy self.arr,
its length self.n and the node list self.tree. -/
structure SegmentTreeVariance where
  arr : List ℚ
  n : ℕ
  tree : List Node
deriving DecidableEq, Repr

/-- SegmentTreeVariance.__init__ : keeps a copy of arr, allocates 4 * n empty
nodes and builds over [0, n-1] when n > 0.  Lean lists are immutable values,
so the copy arr[:] is the identity here; the aliasing aspect of that copy is
modelled explicitly for claim C9 further below. -/
def mkTree (arr : List ℚ) : SegmentTreeVariance :=
  let n := arr.length
  let tree0 := List.replicate (4 * n) Node.empty
  if n = 0 then ⟨arr, n, tree0⟩
  else ⟨arr, n, buildRec arr tree0 0 0 (n - 1)⟩

/-- SegmentTreeVariance.update: raises IndexError when index < 0 or
index >= n, before any state is touched; otherwise writes arr[index] and
repairs the tree along the root-to-leaf path.  The index is an integer so
that the negative-index check of the source is meaningful. -/
def SegmentTreeVariance.update (s : SegmentTreeVariance) (index : ℤ)
    (new_value : ℚ) : Except String SegmentTreeVariance :=
  if index < 0 ∨ (s.n : ℤ) ≤ index then
    Except.error "Indice fuera de rango"
  else
    Except.ok
      { arr := s.arr.set index.toNat new_value
        n := s.n
        tree := updateRec s.tree 0 0 (s.n - 1) index.toNat new_value }

/-- SegmentTreeVariance.query_variance: validates the range exactly as the
source (query_left < 0 or query_right >= n or query_left > query_right)
and otherwise returns get_variance of the aggregated node. -/
def SegmentTreeVariance.query_variance (s : SegmentTreeVariance)
    (query_left query_right : ℤ) : Except String ℚ :=
  if query_left < 0 ∨ (s.n : ℤ) ≤ query_right ∨ query_right < query_left then
    Except.error "Rango invalido"
  else
    Except.ok (queryRec s.tree 0 0 (s.n - 1) query_left.toNat query_right.toNat).get_variance

/-- SegmentTreeVariance.query_mean: same validation, returns get_mean. -/
def SegmentTreeVariance.query_mean (s : SegmentTreeVariance)
    (query_left query_right : ℤ) : Except String ℚ :=
  if query_left < 0 ∨ (s.n : ℤ) ≤ query_right ∨ query_right < query_left then
    Except.error "Rango invalido"
  else
    Except.ok (queryRec s.tree 0 0 (s.n - 1) query_left.toNat query_right.toNat).get_mean

/-- SegmentTreeVariance.query_sum: same validation, returns the suma field. -/
def SegmentTreeVariance.query_sum (s : SegmentTreeVariance)
    (query_left query_right : ℤ) : Except String ℚ :=
  if query_left < 0 ∨ (s.n : ℤ) ≤ query_right ∨ query_right < query_left then
    Except.error "Rango invalido"
  else
    Except.ok (queryRec s.tree 0 0 (s.n - 1) query_left.toNat query_right.toNat).suma

/-- SegmentTreeVariance.get_array: returns a copy of self.arr (the copy is
the identity on immutable values; claim C9 models the aliasing). -/
def SegmentTreeVariance.get_array (s : SegmentTreeVariance) : List ℚ := s.arr

/-
Specification-side definitions: the slice a query range denotes and the
statistics computed directly on it.
-/

/-- The slice arr[l..r] with inclusive ends: the subsequence a query range
denotes. -/
def seg (arr : List ℚ) (l r : ℕ) : List ℚ := (arr.drop l).take (r + 1 - l)

/-- Direct aggregate of arr[l..r]: sum, sum of squares and element count
computed straight from the slice. -/
def Agg (arr : List ℚ) (l r : ℕ) : Node :=
  ⟨(seg arr l r).sum, ((seg arr l r).map fun x => x * x).sum, (seg arr l r).length⟩

/-- Population mean of a list, 0 for the empty list. -/
def listMean (xs : List ℚ) : ℚ :=
  if xs.length = 0 then 0 else xs.sum / (xs.length : ℚ)

/-- Population variance of a list computed directly from the squared
deviations, 0 for the empty list. -/
def listVar (xs : List ℚ) : ℚ :=
  if xs.length = 0 then 0
  else ((xs.map fun x => (x - listMean xs) * (x - listMean xs)).sum) / (xs.length : ℚ)

/-
Heap-index geometry: the ancestor relation of the implicit binary heap with
children 2i+1 and 2i+2, the Covers relation describing which interval a heap
position covers inside a descent, and the arithmetic bound showing the whole
descent stays below 4 * n.
-/

/-- isAnc i j: position j lies in the subtree rooted at heap position i,
computed by walking the parent chain of j. -/
def isAnc (i j : ℕ) : Bool :=
  if i = j then true
  else if j = 0 then false
  else isAnc i ((j - 1) / 2)
termination_by j
decreasing_by omega

/-- Covers i l r j lo hi: in the recursive descent that starts at node i over
the interval [l, r] and always splits at mid = (l+r)/2, node j is reached
covering the interval [lo, hi]. -/
inductive Covers : ℕ → ℕ → ℕ → ℕ → ℕ → ℕ → Prop where
  | refl (i l r : ℕ) : Covers i l r i l r
  | left {i l r j lo hi : ℕ} : l < r → Covers (2 * i + 1) l ((l + r) / 2) j lo hi →
      Covers i l r j lo hi
  | right {i l r j lo hi : ℕ} : l < r → Covers (2 * i + 2) ((l + r) / 2 + 1) r j lo hi →
      Covers i l r j lo hi

/-- GoodT arr tree i l r: below node i the tree stores, at every position j
covering [lo, hi], exactly the direct aggregate of arr over [lo, hi]. -/
def GoodT (arr : List ℚ) (tree : List Node) (i l r : ℕ) : Prop :=
  ∀ j lo hi, Covers i l r j lo hi → getNode tree j = Agg arr lo hi

/-- fits i l r len: arithmetic bound guaranteeing that every heap position of
the descent from node i over [l, r] is strictly below len. -/
def fits (i l r len : ℕ) : Prop :=
  (i + 2) * 2 ^ Nat.clog 2 (r + 1 - l) ≤ len + 1

/-- All tree indices that buildRec touches from (i, l, r); updateRec and
queryRec touch subsets of this list. -/
def buildAcc (i l r : ℕ) : List ℕ :=
  if _h1 : l = r then [i]
  else if _h2 : r < l then []
  else i :: (buildAcc (2 * i + 1) l ((l + r) / 2) ++ buildAcc (2 * i + 2) ((l + r) / 2 + 1) r)
termination_by r - l
decreasing_by
  all_goals omega

/-- All tree indices that updateRec touches from (i, l, r) with target tgt:
the path node, the two children it rereads at the merge, and the chosen
child recursion. -/
def updAcc (i l r tgt : ℕ) : List ℕ :=
  if _h1 : l = r then [i]
  else if _h2 : r < l then []
  else i :: (2 * i + 1) :: (2 * i + 2) ::
    (if tgt ≤ (l + r) / 2 then updAcc (2 * i + 1) l ((l + r) / 2) tgt
     else updAcc (2 * i + 2) ((l + r) / 2 + 1) r tgt)
termination_by r - l
decreasing_by
  all_goals omega

/-- All tree indices that queryRec reads from (i, l, r) for the query range
[ql, qr]: nothing on no overlap, the node itself on total overlap, both child
recursions on partial overlap. -/
def qryAcc (i l r ql qr : ℕ) : List ℕ :=
  if _h1 : qr < l ∨ r < ql then []
  else if _h2 : ql ≤ l ∧ r ≤ qr then [i]
  else qryAcc (2 * i + 1) l ((l + r) / 2) ql qr ++ qryAcc (2 * i + 2) ((l + r) / 2 + 1) r ql qr
termination_by r - l
decreasing_by
  all_goals omega

/-- Global well-formedness of a tree state: n is the backing length, the node
list has the allocated 4 * n slots, and for n ≥ 1 the descent from the root
stores the direct aggregates.  It holds after construction and is preserved
by update. -/
def Wf (s : SegmentTreeVariance) : Prop :=
  s.n = s.arr.length ∧ s.tree.length = 4 * s.n ∧
    (1 ≤ s.n → GoodT s.arr s.tree 0 0 (s.n - 1))

/-
Basic facts about node reads and writes.
-/

theorem length_setNode (t : List Node) (i : ℕ) (v : Node) :
    (setNode t i v).length = t.length := List.length_set t i v

theorem getNode_setNode_ne (t : List Node) (i j : ℕ) (v : Node) (h : j ≠ i) :
    getNode (setNode t i v) j = getNode t j := by
  unfold getNode setNode
  rcases Nat.lt_or_ge j t.length with h1 | h1
  · rw [List.getD_eq_getElem _ _ (by simpa using h1), List.getD_eq_getElem _ _ h1,
      List.getElem_set_ne (by omega)]
  · rw [List.getD_eq_default _ _ (by simpa using h1), List.getD_eq_default _ _ h1]

theorem getNode_setNode_self (t : List Node) (i : ℕ) (v : Node) (h : i < t.length) :
    getNode (setNode t i v) i = v := by
  unfold getNode setNode
  rw [List.getD_eq_getElem _ _ (by simpa using h), List.getElem_set_self]

/-
The merge operator is a commutative monoid operation with the empty node as
identity.
-/

theorem mergeNodes_assoc (a b c : Node) :
    mergeNodes (mergeNodes a b) c = mergeNodes a (mergeNodes b c) := by
  simp [mergeNodes, add_assoc]

theorem mergeNodes_comm (a b : Node) : mergeNodes a b = mergeNodes b a := by
  simp [mergeNodes, add_comm]

theorem mergeNodes_empty_left (x : Node) : mergeNodes Node.empty x = x := by
  cases x
  simp [mergeNodes, Node.empty]

theorem mergeNodes_empty_right (x : Node) : mergeNodes x Node.empty = x := by
  cases x
  simp [mergeNodes, Node.empty]

/-
The ancestor relation of the heap layout.
-/

theorem isAnc_refl (i : ℕ) : isAnc i i = true := by
  rw [isAnc.eq_def]
  simp

theorem isAnc_le {i j : ℕ} (h : isAnc i j = true) : i ≤ j := by
  by_cases h1 : i = j
  · omega
  · rw [isAnc.eq_def, if_neg h1] at h
    by_cases h2 : j = 0
    · rw [if_pos h2] at h
      exact absurd h (by simp)
    · rw [if_neg h2] at h
      have := isAnc_le h
      omega
termination_by j
decreasing_by all_goals omega

theorem isAnc_step {i j : ℕ} (h : isAnc i j = true) (hne : i ≠ j) :
    j ≠ 0 ∧ isAnc i ((j - 1) / 2) = true := by
  rw [isAnc.eq_def, if_neg hne] at h
  by_cases h2 : j = 0
  · rw [if_pos h2] at h
    exact absurd h (by simp)
  · rw [if_neg h2] at h
    exact ⟨h2, h⟩

theorem isAnc_parent {i j : ℕ} (hj : j ≠ 0) (h : isAnc i ((j - 1) / 2) = true) :
    isAnc i j = true := by
  by_cases h1 : i = j
  · rw [h1, isAnc_refl]
  · rw [isAnc.eq_def, if_neg h1, if_neg hj]
    exact h

theorem isAnc_trans {i j k : ℕ} (hij : isAnc i j = true) (hjk : isAnc j k = true) :
    isAnc i k = true := by
  by_cases h1 : j = k
  · exact h1 ▸ hij
  · obtain ⟨hk0, hstep⟩ := isAnc_step hjk h1
    exact isAnc_parent hk0 (isAnc_trans hij hstep)
termination_by k
decreasing_by all_goals omega

theorem isAnc_child_left (i : ℕ) : isAnc i (2 * i + 1) = true := by
  apply isAnc_parent (by omega)
  have e : (2 * i + 1 - 1) / 2 = i := by omega
  rw [e, isAnc_refl]

theorem isAnc_child_right (i : ℕ) : isAnc i (2 * i + 2) = true := by
  apply isAnc_parent (by omega)
  have e : (2 * i + 2 - 1) / 2 = i := by omega
  rw [e, isAnc_refl]

theorem not_isAnc_of_lt {i j : ℕ} (h : j < i) : isAnc i j = false := by
  cases hc : isAnc i j
  · rfl
  · have := isAnc_le hc
    omega

theorem isAnc_children_disjoint {i j : ℕ} (h1 : isAnc (2 * i + 1) j = true)
    (h2 : isAnc (2 * i + 2) j = true) : False := by
  by_cases e1 : 2 * i + 1 = j
  · have := isAnc_le h2
    omega
  · by_cases e2 : 2 * i + 2 = j
    · obtain ⟨hj0, hs⟩ := isAnc_step h1 e1
      have e : (j - 1) / 2 = i := by omega
      rw [e] at hs
      have := isAnc_le hs
      omega
    · obtain ⟨hj0, hs1⟩ := isAnc_step h1 e1
      obtain ⟨-, hs2⟩ := isAnc_step h2 e2
      exact isAnc_children_disjoint hs1 hs2
termination_by j
decreasing_by all_goals omega

theorem isAnc_of_left {i j : ℕ} (h : isAnc (2 * i + 1) j = true) : isAnc i j = true :=
  isAnc_trans (isAnc_child_left i) h

theorem isAnc_of_right {i j : ℕ} (h : isAnc (2 * i + 2) j = true) : isAnc i j = true :=
  isAnc_trans (isAnc_child_right i) h

/-
Covers and GoodT.
-/

theorem covers_isAnc {i l r j lo hi : ℕ} (h : Covers i l r j lo hi) :
    isAnc i j = true := by
  induction h with
  | refl => exact isAnc_refl _
  | left hlr _ ih => exact isAnc_of_left ih
  | right hlr _ ih => exact isAnc_of_right ih

theorem covers_bounds {i l r j lo hi : ℕ} (h : Covers i l r j lo hi) (hlr : l ≤ r) :
    l ≤ lo ∧ lo ≤ hi ∧ hi ≤ r := by
  induction h with
  | refl => omega
  | left hlr2 _ ih =>
      have := ih (by omega)
      omega
  | right hlr2 _ ih =>
      have := ih (by omega)
      omega

theorem goodT_left {arr : List ℚ} {t : List Node} {i l r : ℕ}
    (g : GoodT arr t i l r) (h : l < r) : GoodT arr t (2 * i + 1) l ((l + r) / 2) :=
  fun j lo hi c => g j lo hi (Covers.left h c)

theorem goodT_right {arr : List ℚ} {t : List Node} {i l r : ℕ}
    (g : GoodT arr t i l r) (h : l < r) : GoodT arr t (2 * i + 2) ((l + r) / 2 + 1) r :=
  fun j lo hi c => g j lo hi (Covers.right h c)

theorem goodT_congr {arr : List ℚ} {t t2 : List Node} {i l r : ℕ}
    (h : ∀ j, isAnc i j = true → getNode t2 j = getNode t j)
    (g : GoodT arr t i l r) : GoodT arr t2 i l r :=
  fun j lo hi c => (h j (covers_isAnc c)).trans (g j lo hi c)

/-
Arithmetic for the 4 * n capacity bound.
-/

theorem clog2_half {s : ℕ} (h : 2 ≤ s) : Nat.clog 2 s = Nat.clog 2 ((s + 1) / 2) + 1 := by
  have hc := Nat.clog_of_two_le (b := 2) (by norm_num) h
  have e : (s + 2 - 1) / 2 = (s + 1) / 2 := by omega
  rw [e] at hc
  exact hc

theorem fits_lt {i l r len : ℕ} (h : fits i l r len) : i < len := by
  unfold fits at h
  have h2 : (i + 2) * 1 ≤ (i + 2) * 2 ^ Nat.clog 2 (r + 1 - l) :=
    Nat.mul_le_mul_left _ Nat.one_le_two_pow
  omega

theorem fits_left {i l r len : ℕ} (hlr : l < r) (h : fits i l r len) :
    fits (2 * i + 1) l ((l + r) / 2) len := by
  unfold fits at h ⊢
  have hs : 2 ≤ r + 1 - l := by omega
  have hsz : (l + r) / 2 + 1 - l = (r + 1 - l + 1) / 2 := by omega
  rw [hsz]
  have hc := clog2_half hs
  have hpos : 1 ≤ Nat.clog 2 (r + 1 - l) := by omega
  have he : Nat.clog 2 ((r + 1 - l + 1) / 2) = Nat.clog 2 (r + 1 - l) - 1 := by omega
  rw [he]
  have hpow : 2 ^ Nat.clog 2 (r + 1 - l) = 2 * 2 ^ (Nat.clog 2 (r + 1 - l) - 1) := by
    rw [← pow_succ']
    congr 1
    omega
  calc (2 * i + 1 + 2) * 2 ^ (Nat.clog 2 (r + 1 - l) - 1)
      ≤ (2 * (i + 2)) * 2 ^ (Nat.clog 2 (r + 1 - l) - 1) :=
        Nat.mul_le_mul_right _ (by omega)
    _ = (i + 2) * 2 ^ Nat.clog 2 (r + 1 - l) := by rw [hpow]; ring
    _ ≤ len + 1 := h

theorem fits_right {i l r len : ℕ} (hlr : l < r) (h : fits i l r len) :
    fits (2 * i + 2) ((l + r) / 2 + 1) r len := by
  unfold fits at h ⊢
  have hs : 2 ≤ r + 1 - l := by omega
  have hc := clog2_half hs
  have hpos : 1 ≤ Nat.clog 2 (r + 1 - l) := by omega
  have hsz : r + 1 - ((l + r) / 2 + 1) ≤ (r + 1 - l + 1) / 2 := by omega
  have hmono : Nat.clog 2 (r + 1 - ((l + r) / 2 + 1)) ≤ Nat.clog 2 ((r + 1 - l + 1) / 2) :=
    Nat.clog_mono_right _ hsz
  have hle : Nat.clog 2 (r + 1 - ((l + r) / 2 + 1)) ≤ Nat.clog 2 (r + 1 - l) - 1 := by omega
  have hpow : 2 ^ Nat.clog 2 (r + 1 - l) = 2 * 2 ^ (Nat.clog 2 (r + 1 - l) - 1) := by
    rw [← pow_succ']
    congr 1
    omega
  calc (2 * i + 2 + 2) * 2 ^ Nat.clog 2 (r + 1 - ((l + r) / 2 + 1))
      ≤ (2 * (i + 2)) * 2 ^ (Nat.clog 2 (r + 1 - l) - 1) :=
        Nat.mul_le_mul (by omega) (Nat.pow_le_pow_right (by norm_num) hle)
    _ = (i + 2) * 2 ^ Nat.clog 2 (r + 1 - l) := by rw [hpow]; ring
    _ ≤ len + 1 := h

theorem fits_root {n : ℕ} (h : 1 ≤ n) : fits 0 0 (n - 1) (4 * n) := by
  unfold fits
  have e : n - 1 + 1 - 0 = n := by omega
  rw [e]
  rcases Nat.lt_or_ge n 2 with h2 | h2
  · have e1 : n = 1 := by omega
    subst e1
    simp
  · have hc : 1 ≤ Nat.clog 2 n := Nat.clog_pos (by norm_num) h2
    have hp : 2 ^ (Nat.clog 2 n - 1) < n := by
      have hp2 := Nat.pow_pred_clog_lt_self (b := 2) (by norm_num) (x := n) (by omega)
      rwa [Nat.pred_eq_sub_one] at hp2
    have hpow : 2 ^ Nat.clog 2 n = 2 * 2 ^ (Nat.clog 2 n - 1) := by
      rw [← pow_succ']
      congr 1
      omega
    rw [hpow]
    omega

/-
Every index in the descent lists is below the capacity.
-/

theorem buildAcc_lt {i l r len : ℕ} (hlr : l ≤ r) (hf : fits i l r len) :
    ∀ j ∈ buildAcc i l r, j < len := by
  intro j hj
  by_cases h1 : l = r
  · rw [buildAcc.eq_def, dif_pos h1] at hj
    simp only [List.mem_singleton] at hj
    subst hj
    exact fits_lt hf
  · have hlt : l < r := by omega
    rw [buildAcc.eq_def, dif_neg h1, dif_neg (by omega)] at hj
    simp only [List.mem_cons, List.mem_append] at hj
    rcases hj with rfl | hj | hj
    · exact fits_lt hf
    · exact buildAcc_lt (by omega) (fits_left hlt hf) j hj
    · exact buildAcc_lt (by omega) (fits_right hlt hf) j hj
termination_by r - l
decreasing_by all_goals omega

theorem self_mem_buildAcc {i l r : ℕ} (h : l ≤ r) : i ∈ buildAcc i l r := by
  by_cases h1 : l = r
  · rw [buildAcc.eq_def, dif_pos h1]
    simp
  · rw [buildAcc.eq_def, dif_neg h1, dif_neg (by omega)]
    simp

theorem updAcc_subset {i l r tgt : ℕ} : ∀ j ∈ updAcc i l r tgt, j ∈ buildAcc i l r := by
  intro j hj
  by_cases h1 : l = r
  · rw [updAcc.eq_def, dif_pos h1] at hj
    rw [buildAcc.eq_def, dif_pos h1]
    exact hj
  · by_cases h2 : r < l
    · rw [updAcc.eq_def, dif_neg h1, dif_pos h2] at hj
      simp at hj
    · rw [updAcc.eq_def, dif_neg h1, dif_neg h2] at hj
      rw [buildAcc.eq_def, dif_neg h1, dif_neg h2]
      simp only [List.mem_cons, List.mem_append] at hj ⊢
      have hml : l ≤ (l + r) / 2 := by omega
      have hmr : (l + r) / 2 + 1 ≤ r := by omega
      rcases hj with rfl | hj2
      · exact Or.inl rfl
      rcases hj2 with rfl | hj3
      · exact Or.inr (Or.inl (self_mem_buildAcc hml))
      rcases hj3 with rfl | hj4
      · exact Or.inr (Or.inr (self_mem_buildAcc hmr))
      by_cases ht : tgt ≤ (l + r) / 2
      · rw [if_pos ht] at hj4
        exact Or.inr (Or.inl (updAcc_subset j hj4))
      · rw [if_neg ht] at hj4
        exact Or.inr (Or.inr (updAcc_subset j hj4))
termination_by r - l
decreasing_by all_goals omega

theorem qryAcc_subset {i l r ql qr : ℕ} (hlr : l ≤ r) :
    ∀ j ∈ qryAcc i l r ql qr, j ∈ buildAcc i l r := by
  intro j hj
  by_cases h1 : qr < l ∨ r < ql
  · rw [qryAcc.eq_def, dif_pos h1] at hj
    simp at hj
  · by_cases h2 : ql ≤ l ∧ r ≤ qr
    · rw [qryAcc.eq_def, dif_neg h1, dif_pos h2] at hj
      simp only [List.mem_singleton] at hj
      subst hj
      exact self_mem_buildAcc (by omega)
    · rw [qryAcc.eq_def, dif_neg h1, dif_neg h2] at hj
      have hlt : l < r := by omega
      rw [buildAcc.eq_def, dif_neg (by omega), dif_neg (by omega)]
      simp only [List.mem_append] at hj
      simp only [List.mem_cons, List.mem_append]
      rcases hj with hj | hj
      · exact Or.inr (Or.inl (qryAcc_subset (by omega) j hj))
      · exact Or.inr (Or.inr (qryAcc_subset (by omega) j hj))
termination_by r - l
decreasing_by all_goals omega

/-
Slices and direct aggregates.
-/

theorem seg_length {arr : List ℚ} {l r : ℕ} (hlr : l ≤ r) (hr : r < arr.length) :
    (seg arr l r).length = r + 1 - l := by
  unfold seg
  rw [List.length_take, List.length_drop]
  omega

theorem seg_single {arr : List ℚ} {l : ℕ} (hl : l < arr.length) :
    seg arr l l = [arr.getD l 0] := by
  unfold seg
  have e : l + 1 - l = 1 := by omega
  rw [e, List.drop_eq_getElem_cons hl, List.getD_eq_getElem _ _ hl]
  rfl

theorem seg_split {arr : List ℚ} {l m r : ℕ} (h1 : l ≤ m) (h2 : m < r) :
    seg arr l r = seg arr l m ++ seg arr (m + 1) r := by
  unfold seg
  have e : r + 1 - l = (m + 1 - l) + (r - m) := by omega
  rw [e, List.take_add, List.drop_drop]
  have e2 : l + (m + 1 - l) = m + 1 := by omega
  have e3 : r - m = r + 1 - (m + 1) := by omega
  rw [e2, e3]

theorem seg_set_outside {arr : List ℚ} {tgt lo hi : ℕ} (v : ℚ)
    (h : tgt < lo ∨ hi < tgt) : seg (arr.set tgt v) lo hi = seg arr lo hi := by
  unfold seg
  apply List.ext_getElem
  · simp [List.length_set]
  · intro k h1 h2
    have hk : k < hi + 1 - lo := by
      simp only [List.length_take, List.length_drop, List.length_set] at h1
      omega
    simp only [List.getElem_take, List.getElem_drop]
    exact List.getElem_set_ne (by omega) _

theorem getD_set_self {arr : List ℚ} {tgt : ℕ} (v : ℚ) (h : tgt < arr.length) :
    (arr.set tgt v).getD tgt 0 = v := by
  rw [List.getD_eq_getElem _ _ (by simpa using h), List.getElem_set_self]

theorem Agg_split {arr : List ℚ} {l m r : ℕ} (h1 : l ≤ m) (h2 : m < r) :
    mergeNodes (Agg arr l m) (Agg arr (m + 1) r) = Agg arr l r := by
  unfold Agg mergeNodes
  rw [seg_split h1 h2]
  simp

theorem Agg_single {arr : List ℚ} {l : ℕ} (h : l < arr.length) :
    Agg arr l l = leafNode (arr.getD l 0) := by
  unfold Agg leafNode
  rw [seg_single h]
  simp

theorem Agg_set_outside {arr : List ℚ} {tgt lo hi : ℕ} (v : ℚ)
    (h : tgt < lo ∨ hi < tgt) : Agg (arr.set tgt v) lo hi = Agg arr lo hi := by
  unfold Agg
  rw [seg_set_outside v h]

theorem Agg_set_self {arr : List ℚ} {tgt : ℕ} (v : ℚ) (h : tgt < arr.length) :
    Agg (arr.set tgt v) tgt tgt = leafNode v := by
  rw [Agg_single (by simpa using h), getD_set_self v h]

/-
Build: length preservation, frame property and correctness.
-/

theorem not_isAnc_left {i j : ℕ} (h : isAnc i j = false) : isAnc (2 * i + 1) j = false := by
  cases hc : isAnc (2 * i + 1) j
  · rfl
  · rw [isAnc_of_left hc] at h
    simp at h

theorem not_isAnc_right {i j : ℕ} (h : isAnc i j = false) : isAnc (2 * i + 2) j = false := by
  cases hc : isAnc (2 * i + 2) j
  · rfl
  · rw [isAnc_of_right hc] at h
    simp at h

theorem buildRec_length (arr : List ℚ) (tree : List Node) (i l r : ℕ) :
    (buildRec arr tree i l r).length = tree.length := by
  by_cases h1 : l = r
  · rw [buildRec.eq_def, dif_pos h1, length_setNode]
  · by_cases h2 : r < l
    · rw [buildRec.eq_def, dif_neg h1, dif_pos h2]
    · rw [buildRec.eq_def, dif_neg h1, dif_neg h2]
      simp only [length_setNode]
      rw [buildRec_length, buildRec_length]
termination_by r - l
decreasing_by all_goals omega

theorem buildRec_frame {arr : List ℚ} {tree : List Node} {i l r j : ℕ}
    (h : isAnc i j = false) : getNode (buildRec arr tree i l r) j = getNode tree j := by
  have hij : j ≠ i := by
    intro e
    subst e
    rw [isAnc_refl] at h
    simp at h
  by_cases h1 : l = r
  · rw [buildRec.eq_def, dif_pos h1, getNode_setNode_ne _ _ _ _ hij]
  · by_cases h2 : r < l
    · rw [buildRec.eq_def, dif_neg h1, dif_pos h2]
    · rw [buildRec.eq_def, dif_neg h1, dif_neg h2]
      simp only []
      rw [getNode_setNode_ne _ _ _ _ hij, buildRec_frame (not_isAnc_right h),
        buildRec_frame (not_isAnc_left h)]
termination_by r - l
decreasing_by all_goals omega

theorem buildRec_good {arr : List ℚ} {tree : List Node} {i l r : ℕ}
    (hlr : l ≤ r) (hr : r < arr.length) (hf : fits i l r tree.length) :
    GoodT arr (buildRec arr tree i l r) i l r := by
  by_cases h1 : l = r
  · subst h1
    intro j lo hi c
    cases c with
    | refl =>
        rw [buildRec.eq_def, dif_pos rfl,
          getNode_setNode_self _ _ _ (fits_lt hf), Agg_single hr]
    | left h' _ => omega
    | right h' _ => omega
  · have hlt : l < r := by omega
    have hmL : l ≤ (l + r) / 2 := by omega
    have hmR : (l + r) / 2 + 1 ≤ r := by omega
    have hfL : fits (2 * i + 1) l ((l + r) / 2) tree.length := fits_left hlt hf
    have hfR : fits (2 * i + 2) ((l + r) / 2 + 1) r tree.length := fits_right hlt hf
    have IH1 : GoodT arr (buildRec arr tree (2 * i + 1) l ((l + r) / 2))
        (2 * i + 1) l ((l + r) / 2) :=
      buildRec_good hmL (by omega) hfL
    have IH2 : GoodT arr
        (buildRec arr (buildRec arr tree (2 * i + 1) l ((l + r) / 2))
          (2 * i + 2) ((l + r) / 2 + 1) r)
        (2 * i + 2) ((l + r) / 2 + 1) r :=
      buildRec_good hmR hr (by rw [buildRec_length]; exact hfR)
    intro j lo hi c
    rw [buildRec.eq_def, dif_neg h1, dif_neg (by omega)]
    simp only []
    cases c with
    | refl =>
        have hlen : i <
            (buildRec arr (buildRec arr tree (2 * i + 1) l ((l + r) / 2))
              (2 * i + 2) ((l + r) / 2 + 1) r).length := by
          rw [buildRec_length, buildRec_length]
          exact fits_lt hf
        rw [getNode_setNode_self _ _ _ hlen]
        have hd : isAnc (2 * i + 2) (2 * i + 1) = false := not_isAnc_of_lt (by omega)
        rw [buildRec_frame hd, IH1 _ _ _ (Covers.refl _ _ _), IH2 _ _ _ (Covers.refl _ _ _)]
        exact Agg_split hmL (by omega)
    | left hlr2 c2 =>
        have hanc : isAnc (2 * i + 1) j = true := covers_isAnc c2
        have hne : j ≠ i := by
          have := isAnc_le hanc
          omega
        have hd : isAnc (2 * i + 2) j = false := by
          cases hc : isAnc (2 * i + 2) j
          · rfl
          · exact absurd (isAnc_children_disjoint hanc hc) (by simp)
        rw [getNode_setNode_ne _ _ _ _ hne, buildRec_frame hd]
        exact IH1 _ _ _ c2
    | right hlr2 c2 =>
        have hanc : isAnc (2 * i + 2) j = true := covers_isAnc c2
        have hne : j ≠ i := by
          have := isAnc_le hanc
          omega
        rw [getNode_setNode_ne _ _ _ _ hne]
        exact IH2 _ _ _ c2
termination_by r - l
decreasing_by all_goals omega

theorem wf_mkTree (arr : List ℚ) : Wf (mkTree arr) := by
  by_cases h : arr.length = 0
  · unfold Wf mkTree
    simp [h]
  · have e : mkTree arr = ⟨arr, arr.length,
        buildRec arr (List.replicate (4 * arr.length) Node.empty) 0 0 (arr.length - 1)⟩ := by
      unfold mkTree
      simp [h]
    unfold Wf
    rw [e]
    refine ⟨rfl, ?_, ?_⟩
    · show (buildRec arr (List.replicate (4 * arr.length) Node.empty) 0 0
        (arr.length - 1)).length = 4 * arr.length
      rw [buildRec_length, List.length_replicate]
    · intro hn
      show GoodT arr (buildRec arr (List.replicate (4 * arr.length) Node.empty) 0 0
        (arr.length - 1)) 0 0 (arr.length - 1)
      apply buildRec_good (by omega) (by omega)
      rw [List.length_replicate]
      exact fits_root (by omega)

/-
Update: length preservation, frame property and correctness.
-/

theorem updateRec_length (tree : List Node) (i l r tgt : ℕ) (v : ℚ) :
    (updateRec tree i l r tgt v).length = tree.length := by
  by_cases h1 : l = r
  · rw [updateRec.eq_def, dif_pos h1, length_setNode]
  · by_cases h2 : r < l
    · rw [updateRec.eq_def, dif_neg h1, dif_pos h2]
    · rw [updateRec.eq_def, dif_neg h1, dif_neg h2]
      simp only [length_setNode]
      by_cases ht : tgt ≤ (l + r) / 2
      · rw [if_pos ht, updateRec_length]
      · rw [if_neg ht, updateRec_length]
termination_by r - l
decreasing_by all_goals omega

theorem updateRec_frame {tree : List Node} {i l r tgt j : ℕ} {v : ℚ}
    (h : isAnc i j = false) :
    getNode (updateRec tree i l r tgt v) j = getNode tree j := by
  have hij : j ≠ i := by
    intro e
    subst e
    rw [isAnc_refl] at h
    simp at h
  by_cases h1 : l = r
  · rw [updateRec.eq_def, dif_pos h1, getNode_setNode_ne _ _ _ _ hij]
  · by_cases h2 : r < l
    · rw [updateRec.eq_def, dif_neg h1, dif_pos h2]
    · rw [updateRec.eq_def, dif_neg h1, dif_neg h2]
      simp only []
      rw [getNode_setNode_ne _ _ _ _ hij]
      by_cases ht : tgt ≤ (l + r) / 2
      · rw [if_pos ht, updateRec_frame (not_isAnc_left h)]
      · rw [if_neg ht, updateRec_frame (not_isAnc_right h)]
termination_by r - l
decreasing_by all_goals omega

theorem not_isAnc_sibling (i : ℕ) : isAnc (2 * i + 1) (2 * i + 2) = false := by
  cases hc : isAnc (2 * i + 1) (2 * i + 2)
  · rfl
  · obtain ⟨h0, hs⟩ := isAnc_step hc (by omega)
    have e : (2 * i + 2 - 1) / 2 = i := by omega
    rw [e] at hs
    have := isAnc_le hs
    omega

theorem updateRec_good {arr : List ℚ} {tree : List Node} {i l r tgt : ℕ} {v : ℚ}
    (g : GoodT arr tree i l r) (h1 : l ≤ tgt) (h2 : tgt ≤ r) (hr : r < arr.length)
    (hf : fits i l r tree.length) :
    GoodT (arr.set tgt v) (updateRec tree i l r tgt v) i l r := by
  by_cases hlr : l = r
  · subst hlr
    have htgt : tgt = l := by omega
    subst htgt
    intro j lo hi c
    cases c with
    | refl =>
        rw [updateRec.eq_def, dif_pos rfl, getNode_setNode_self _ _ _ (fits_lt hf)]
        exact (Agg_set_self v (by omega)).symm
    | left h' _ => omega
    | right h' _ => omega
  · have hlt : l < r := by omega
    by_cases ht : tgt ≤ (l + r) / 2
    · have IH : GoodT (arr.set tgt v) (updateRec tree (2 * i + 1) l ((l + r) / 2) tgt v)
          (2 * i + 1) l ((l + r) / 2) :=
        updateRec_good (goodT_left g hlt) h1 ht (by omega) (fits_left hlt hf)
      intro j lo hi c
      rw [updateRec.eq_def, dif_neg hlr, dif_neg (by omega)]
      simp only [if_pos ht]
      cases c with
      | refl =>
          have hlen : i < (updateRec tree (2 * i + 1) l ((l + r) / 2) tgt v).length := by
            rw [updateRec_length]
            exact fits_lt hf
          rw [getNode_setNode_self _ _ _ hlen]
          have hc1 : getNode (updateRec tree (2 * i + 1) l ((l + r) / 2) tgt v) (2 * i + 1) =
              Agg (arr.set tgt v) l ((l + r) / 2) := IH _ _ _ (Covers.refl _ _ _)
          have hc2 : getNode (updateRec tree (2 * i + 1) l ((l + r) / 2) tgt v) (2 * i + 2) =
              Agg (arr.set tgt v) ((l + r) / 2 + 1) r := by
            rw [updateRec_frame (not_isAnc_sibling i),
              g _ _ _ (Covers.right hlt (Covers.refl _ _ _))]
            exact (Agg_set_outside v (by omega)).symm
          rw [hc1, hc2]
          exact Agg_split (by omega) (by omega)
      | left h' c2 =>
          have hanc := covers_isAnc c2
          rw [getNode_setNode_ne _ _ _ _ (by have := isAnc_le hanc; omega)]
          exact IH _ _ _ c2
      | right h' c2 =>
          have hanc := covers_isAnc c2
          rw [getNode_setNode_ne _ _ _ _ (by have := isAnc_le hanc; omega)]
          have hd : isAnc (2 * i + 1) j = false := by
            cases hcx : isAnc (2 * i + 1) j
            · rfl
            · exact absurd (isAnc_children_disjoint hcx hanc) (by simp)
          rw [updateRec_frame hd, g _ _ _ (Covers.right hlt c2)]
          have hb := covers_bounds c2 (by omega)
          exact (Agg_set_outside v (by omega)).symm
    · have IH : GoodT (arr.set tgt v) (updateRec tree (2 * i + 2) ((l + r) / 2 + 1) r tgt v)
          (2 * i + 2) ((l + r) / 2 + 1) r :=
        updateRec_good (goodT_right g hlt) (by omega) h2 hr (fits_right hlt hf)
      intro j lo hi c
      rw [updateRec.eq_def, dif_neg hlr, dif_neg (by omega)]
      simp only [if_neg ht]
      cases c with
      | refl =>
          have hlen : i < (updateRec tree (2 * i + 2) ((l + r) / 2 + 1) r tgt v).length := by
            rw [updateRec_length]
            exact fits_lt hf
          rw [getNode_setNode_self _ _ _ hlen]
          have hc2 : getNode (updateRec tree (2 * i + 2) ((l + r) / 2 + 1) r tgt v) (2 * i + 2) =
              Agg (arr.set tgt v) ((l + r) / 2 + 1) r := IH _ _ _ (Covers.refl _ _ _)
          have hc1 : getNode (updateRec tree (2 * i + 2) ((l + r) / 2 + 1) r tgt v) (2 * i + 1) =
              Agg (arr.set tgt v) l ((l + r) / 2) := by
            rw [updateRec_frame (not_isAnc_of_lt (by omega)),
              g _ _ _ (Covers.left hlt (Covers.refl _ _ _))]
            exact (Agg_set_outside v (by omega)).symm
          rw [hc1, hc2]
          exact Agg_split (by omega) (by omega)
      | left h' c2 =>
          have hanc := covers_isAnc c2
          rw [getNode_setNode_ne _ _ _ _ (by have := isAnc_le hanc; omega)]
          have hd : isAnc (2 * i + 2) j = false := by
            cases hcx : isAnc (2 * i + 2) j
            · rfl
            · exact absurd (isAnc_children_disjoint hanc hcx) (by simp)
          rw [updateRec_frame hd, g _ _ _ (Covers.left hlt c2)]
          have hb := covers_bounds c2 (by omega)
          exact (Agg_set_outside v (by omega)).symm
      | right h' c2 =>
          have hanc := covers_isAnc c2
          rw [getNode_setNode_ne _ _ _ _ (by have := isAnc_le hanc; omega)]
          exact IH _ _ _ c2
termination_by r - l
decreasing_by all_goals omega

/-
Query correctness: on a good subtree the recursive walk returns the direct
aggregate of the intersection of the node interval with the query range.
-/

theorem queryRec_correct {arr : List ℚ} {tree : List Node} {i l r : ℕ}
    (g : GoodT arr tree i l r) (hlr : l ≤ r) (hr : r < arr.length)
    {ql qr : ℕ} (hq : ql ≤ qr) :
    queryRec tree i l r ql qr =
      if ql ≤ r ∧ l ≤ qr then Agg arr (max l ql) (min r qr) else Node.empty := by
  by_cases h1 : qr < l ∨ r < ql
  · rw [queryRec.eq_def, dif_pos h1, if_neg (by omega)]
  · by_cases h2 : ql ≤ l ∧ r ≤ qr
    · rw [queryRec.eq_def, dif_neg h1, dif_pos h2, if_pos (by omega)]
      have e1 : max l ql = l := by omega
      have e2 : min r qr = r := by omega
      rw [e1, e2]
      exact g _ _ _ (Covers.refl _ _ _)
    · have hlt : l < r := by omega
      rw [queryRec.eq_def, dif_neg h1, dif_neg h2, if_pos (by omega)]
      have IH1 := queryRec_correct (goodT_left g hlt)
        (show l ≤ (l + r) / 2 by omega) (by omega) hq
      have IH2 := queryRec_correct (goodT_right g hlt)
        (show (l + r) / 2 + 1 ≤ r by omega) hr hq
      rw [IH1, IH2]
      by_cases hA : qr ≤ (l + r) / 2
      · rw [if_pos (by omega), if_neg (by omega), mergeNodes_empty_right]
        have e1 : min ((l + r) / 2) qr = qr := by omega
        have e2 : min r qr = qr := by omega
        rw [e1, e2]
      · by_cases hB : (l + r) / 2 + 1 ≤ ql
        · rw [if_neg (by omega), if_pos (by omega), mergeNodes_empty_left]
          have e1 : max ((l + r) / 2 + 1) ql = ql := by omega
          have e2 : max l ql = ql := by omega
          rw [e1, e2]
        · rw [if_pos (by omega), if_pos (by omega)]
          have e1 : min ((l + r) / 2) qr = (l + r) / 2 := by omega
          have e2 : max ((l + r) / 2 + 1) ql = (l + r) / 2 + 1 := by omega
          rw [e1, e2]
          exact Agg_split (by omega) (by omega)
termination_by r - l
decreasing_by all_goals omega

/-
Derived statistics of a direct aggregate.
-/

theorem sum_sq_dev (c : ℚ) (xs : List ℚ) :
    (xs.map fun x => (x - c) * (x - c)).sum =
      (xs.map fun x => x * x).sum - 2 * c * xs.sum + (xs.length : ℚ) * c * c := by
  induction xs with
  | nil => simp
  | cons a t ih =>
      simp only [List.map_cons, List.sum_cons, List.length_cons, ih]
      push_cast
      ring

theorem listVar_nonneg (xs : List ℚ) : 0 ≤ listVar xs := by
  unfold listVar
  by_cases h : xs.length = 0
  · rw [if_pos h]
  · rw [if_neg h]
    apply div_nonneg
    · apply List.sum_nonneg
      intro x hx
      obtain ⟨y, hy, rfl⟩ := List.mem_map.mp hx
      exact mul_self_nonneg _
    · exact Nat.cast_nonneg _

theorem get_mean_stats (xs : List ℚ) :
    (Node.mk xs.sum ((xs.map fun x => x * x).sum) xs.length).get_mean = listMean xs := by
  have e1 : (Node.mk xs.sum ((xs.map fun x => x * x).sum) xs.length).get_mean =
      if xs.length = 0 then 0 else xs.sum / (xs.length : ℚ) := rfl
  unfold listMean
  exact e1

theorem get_variance_stats (xs : List ℚ) (h : xs.length ≠ 0) :
    (Node.mk xs.sum ((xs.map fun x => x * x).sum) xs.length).get_variance = listVar xs := by
  have hk : (xs.length : ℚ) ≠ 0 := Nat.cast_ne_zero.mpr h
  have hμ : listMean xs = xs.sum / (xs.length : ℚ) := by
    unfold listMean
    rw [if_neg h]
  have key : (xs.map fun x => (x - listMean xs) * (x - listMean xs)).sum / (xs.length : ℚ) =
      ((xs.map fun x => x * x).sum) / (xs.length : ℚ) -
        (xs.sum / (xs.length : ℚ)) * (xs.sum / (xs.length : ℚ)) := by
    rw [sum_sq_dev, hμ]
    field_simp
    ring
  have pos : 0 ≤ ((xs.map fun x => x * x).sum) / (xs.length : ℚ) -
      (xs.sum / (xs.length : ℚ)) * (xs.sum / (xs.length : ℚ)) := by
    rw [← key]
    apply div_nonneg
    · apply List.sum_nonneg
      intro x hx
      obtain ⟨y, hy, rfl⟩ := List.mem_map.mp hx
      exact mul_self_nonneg _
    · exact Nat.cast_nonneg _
  have e1 : (Node.mk xs.sum ((xs.map fun x => x * x).sum) xs.length).get_variance =
      if xs.length = 0 then 0 else
        max 0 (((xs.map fun x => x * x).sum) / (xs.length : ℚ) -
          (xs.sum / (xs.length : ℚ)) * (xs.sum / (xs.length : ℚ))) := rfl
  rw [e1, if_neg h]
  unfold listVar
  rw [if_neg h, max_eq_right pos]
  exact key.symm

theorem get_variance_nonneg (nd : Node) : 0 ≤ nd.get_variance := by
  unfold Node.get_variance
  by_cases h : nd.count = 0
  · rw [if_pos h]
  · rw [if_neg h]
    exact le_max_left _ _

/-
State level lemmas.
-/

theorem mkTree_arr (arr : List ℚ) : (mkTree arr).arr = arr := by
  unfold mkTree
  by_cases h : arr.length = 0 <;> simp [h]

theorem mkTree_n (arr : List ℚ) : (mkTree arr).n = arr.length := by
  unfold mkTree
  by_cases h : arr.length = 0 <;> simp [h]

theorem update_ok {s : SegmentTreeVariance} {i : ℤ} (v : ℚ)
    (h0 : 0 ≤ i) (hn : i < (s.n : ℤ)) :
    s.update i v = Except.ok
      ⟨s.arr.set i.toNat v, s.n, updateRec s.tree 0 0 (s.n - 1) i.toNat v⟩ := by
  unfold SegmentTreeVariance.update
  rw [if_neg (by omega)]

theorem update_err {s : SegmentTreeVariance} {i : ℤ} (v : ℚ)
    (h : i < 0 ∨ (s.n : ℤ) ≤ i) :
    s.update i v = Except.error "Indice fuera de rango" := by
  unfold SegmentTreeVariance.update
  rw [if_pos h]

theorem wf_update {s : SegmentTreeVariance} {i : ℤ} (v : ℚ)
    (hw : Wf s) (h0 : 0 ≤ i) (hn : i < (s.n : ℤ)) :
    Wf ⟨s.arr.set i.toNat v, s.n, updateRec s.tree 0 0 (s.n - 1) i.toNat v⟩ := by
  obtain ⟨hlen, htlen, hg⟩ := hw
  refine ⟨?_, ?_, ?_⟩
  · show s.n = (s.arr.set i.toNat v).length
    rw [List.length_set]
    exact hlen
  · show (updateRec s.tree 0 0 (s.n - 1) i.toNat v).length = 4 * s.n
    rw [updateRec_length]
    exact htlen
  · intro h1
    show GoodT (s.arr.set i.toNat v) (updateRec s.tree 0 0 (s.n - 1) i.toNat v) 0 0 (s.n - 1)
    apply updateRec_good (hg h1) (by omega) (by omega) (by omega)
    rw [htlen]
    exact fits_root h1

theorem wf_of_update_ok {s s2 : SegmentTreeVariance} {i : ℤ} {v : ℚ}
    (hw : Wf s) (h : s.update i v = Except.ok s2) : Wf s2 := by
  by_cases hc : i < 0 ∨ (s.n : ℤ) ≤ i
  · rw [update_err v hc] at h
    simp at h
  · rw [update_ok v (by omega) (by omega)] at h
    injection h with h2
    rw [← h2]
    exact wf_update v hw (by omega) (by omega)

/-- A reachable tree state: built from some sequence, then any finite number
of successful updates. -/
inductive Reachable : SegmentTreeVariance → Prop where
  | build (arr : List ℚ) : Reachable (mkTree arr)
  | step {s s2 : SegmentTreeVariance} {i : ℤ} {v : ℚ} :
      Reachable s → s.update i v = Except.ok s2 → Reachable s2

theorem wf_reachable {s : SegmentTreeVariance} (h : Reachable s) : Wf s := by
  induction h with
  | build arr => exact wf_mkTree arr
  | step _ hupd ih => exact wf_of_update_ok ih hupd

theorem query_sum_ok {s : SegmentTreeVariance} (hw : Wf s) {lo hi : ℕ}
    (h1 : lo ≤ hi) (h2 : hi < s.n) :
    s.query_sum lo hi = Except.ok (seg s.arr lo hi).sum := by
  obtain ⟨hlen, htlen, hg⟩ := hw
  unfold SegmentTreeVariance.query_sum
  rw [if_neg (by omega)]
  have e1 : ((lo : ℤ)).toNat = lo := by omega
  have e2 : ((hi : ℤ)).toNat = hi := by omega
  rw [e1, e2, queryRec_correct (hg (by omega)) (by omega) (by omega) h1,
    if_pos (by omega)]
  have e3 : max 0 lo = lo := by omega
  have e4 : min (s.n - 1) hi = hi := by omega
  rw [e3, e4]
  rfl

theorem query_mean_ok {s : SegmentTreeVariance} (hw : Wf s) {lo hi : ℕ}
    (h1 : lo ≤ hi) (h2 : hi < s.n) :
    s.query_mean lo hi = Except.ok (listMean (seg s.arr lo hi)) := by
  obtain ⟨hlen, htlen, hg⟩ := hw
  unfold SegmentTreeVariance.query_mean
  rw [if_neg (by omega)]
  have e1 : ((lo : ℤ)).toNat = lo := by omega
  have e2 : ((hi : ℤ)).toNat = hi := by omega
  rw [e1, e2, queryRec_correct (hg (by omega)) (by omega) (by omega) h1,
    if_pos (by omega)]
  have e3 : max 0 lo = lo := by omega
  have e4 : min (s.n - 1) hi = hi := by omega
  rw [e3, e4]
  exact congrArg Except.ok (get_mean_stats (seg s.arr lo hi))

theorem query_variance_ok {s : SegmentTreeVariance} (hw : Wf s) {lo hi : ℕ}
    (h1 : lo ≤ hi) (h2 : hi < s.n) :
    s.query_variance lo hi = Except.ok (listVar (seg s.arr lo hi)) := by
  obtain ⟨hlen, htlen, hg⟩ := hw
  unfold SegmentTreeVariance.query_variance
  rw [if_neg (by omega)]
  have e1 : ((lo : ℤ)).toNat = lo := by omega
  have e2 : ((hi : ℤ)).toNat = hi := by omega
  rw [e1, e2, queryRec_correct (hg (by omega)) (by omega) (by omega) h1,
    if_pos (by omega)]
  have e3 : max 0 lo = lo := by omega
  have e4 : min (s.n - 1) hi = hi := by omega
  rw [e3, e4]
  refine congrArg Except.ok (get_variance_stats (seg s.arr lo hi) ?_)
  rw [seg_length h1 (by omega)]
  omega

/-
Commutation of two point updates at distinct indices.
-/

theorem updateRec_outside {tree : List Node} {i l r tgt j : ℕ} {v : ℚ}
    (h : j ∉ updAcc i l r tgt) :
    getNode (updateRec tree i l r tgt v) j = getNode tree j := by
  by_cases h1 : l = r
  · rw [updateRec.eq_def, dif_pos h1]
    apply getNode_setNode_ne
    intro e
    apply h
    rw [updAcc.eq_def, dif_pos h1]
    simp [e]
  · by_cases h2 : r < l
    · rw [updateRec.eq_def, dif_neg h1, dif_pos h2]
    · have hi : j ≠ i := by
        intro e
        apply h
        rw [updAcc.eq_def, dif_neg h1, dif_neg h2]
        simp [e]
      rw [updateRec.eq_def, dif_neg h1, dif_neg h2]
      simp only []
      rw [getNode_setNode_ne _ _ _ _ hi]
      by_cases ht : tgt ≤ (l + r) / 2
      · rw [if_pos ht]
        apply updateRec_outside
        intro hmem
        apply h
        rw [updAcc.eq_def, dif_neg h1, dif_neg h2]
        simp only [List.mem_cons]
        right; right; right
        rw [if_pos ht]
        exact hmem
      · rw [if_neg ht]
        apply updateRec_outside
        intro hmem
        apply h
        rw [updAcc.eq_def, dif_neg h1, dif_neg h2]
        simp only [List.mem_cons]
        right; right; right
        rw [if_neg ht]
        exact hmem
termination_by r - l
decreasing_by all_goals omega

theorem mem_buildAcc_covers {i l r j : ℕ} (hlr : l ≤ r) (hj : j ∈ buildAcc i l r) :
    ∃ lo hi, Covers i l r j lo hi := by
  by_cases h1 : l = r
  · rw [buildAcc.eq_def, dif_pos h1] at hj
    simp only [List.mem_singleton] at hj
    subst hj
    exact ⟨l, r, Covers.refl _ _ _⟩
  · rw [buildAcc.eq_def, dif_neg h1, dif_neg (by omega)] at hj
    simp only [List.mem_cons, List.mem_append] at hj
    rcases hj with rfl | hj | hj
    · exact ⟨l, r, Covers.refl _ _ _⟩
    · obtain ⟨lo, hi, c⟩ := mem_buildAcc_covers (by omega) hj
      exact ⟨lo, hi, Covers.left (by omega) c⟩
    · obtain ⟨lo, hi, c⟩ := mem_buildAcc_covers (by omega) hj
      exact ⟨lo, hi, Covers.right (by omega) c⟩
termination_by r - l
decreasing_by all_goals omega

theorem covers_unique {i l r j lo hi lo2 hi2 : ℕ} (hlr : l ≤ r)
    (c1 : Covers i l r j lo hi) (c2 : Covers i l r j lo2 hi2) :
    lo = lo2 ∧ hi = hi2 := by
  by_cases h1 : l = r
  · subst h1
    cases c1 with
    | refl =>
        cases c2 with
        | refl => exact ⟨rfl, rfl⟩
        | left h' _ => omega
        | right h' _ => omega
    | left h' _ => omega
    | right h' _ => omega
  · have hlt : l < r := by omega
    cases c1 with
    | refl =>
        cases c2 with
        | refl => exact ⟨rfl, rfl⟩
        | left h' c2' =>
            have := isAnc_le (covers_isAnc c2')
            omega
        | right h' c2' =>
            have := isAnc_le (covers_isAnc c2')
            omega
    | left h' c1' =>
        cases c2 with
        | refl =>
            have := isAnc_le (covers_isAnc c1')
            omega
        | left h2' c2' => exact covers_unique (by omega) c1' c2'
        | right h2' c2' =>
            exact absurd (isAnc_children_disjoint (covers_isAnc c1') (covers_isAnc c2'))
              (by simp)
    | right h' c1' =>
        cases c2 with
        | refl =>
            have := isAnc_le (covers_isAnc c1')
            omega
        | left h2' c2' =>
            exact absurd (isAnc_children_disjoint (covers_isAnc c2') (covers_isAnc c1'))
              (by simp)
        | right h2' c2' => exact covers_unique (by omega) c1' c2'
termination_by r - l
decreasing_by all_goals omega

theorem updateRec_double_comm {s : SegmentTreeVariance} (hw : Wf s) {ti tj : ℕ}
    (hne : ti ≠ tj) (hti : ti < s.n) (htj : tj < s.n) (v w : ℚ) :
    updateRec (updateRec s.tree 0 0 (s.n - 1) ti v) 0 0 (s.n - 1) tj w =
      updateRec (updateRec s.tree 0 0 (s.n - 1) tj w) 0 0 (s.n - 1) ti v := by
  obtain ⟨hlen, htlen, hgood⟩ := hw
  have hn1 : 1 ≤ s.n := by omega
  have hg := hgood hn1
  have hfits : fits 0 0 (s.n - 1) s.tree.length := by
    rw [htlen]
    exact fits_root hn1
  have g1 : GoodT (s.arr.set ti v) (updateRec s.tree 0 0 (s.n - 1) ti v) 0 0 (s.n - 1) :=
    updateRec_good hg (by omega) (by omega) (by omega) hfits
  have g2 : GoodT (s.arr.set tj w) (updateRec s.tree 0 0 (s.n - 1) tj w) 0 0 (s.n - 1) :=
    updateRec_good hg (by omega) (by omega) (by omega) hfits
  have g12 : GoodT ((s.arr.set ti v).set tj w)
      (updateRec (updateRec s.tree 0 0 (s.n - 1) ti v) 0 0 (s.n - 1) tj w) 0 0 (s.n - 1) :=
    updateRec_good g1 (by omega) (by omega) (by rw [List.length_set]; omega)
      (by rw [updateRec_length]; exact hfits)
  have g21 : GoodT ((s.arr.set tj w).set ti v)
      (updateRec (updateRec s.tree 0 0 (s.n - 1) tj w) 0 0 (s.n - 1) ti v) 0 0 (s.n - 1) :=
    updateRec_good g2 (by omega) (by omega) (by rw [List.length_set]; omega)
      (by rw [updateRec_length]; exact hfits)
  have harr : (s.arr.set ti v).set tj w = (s.arr.set tj w).set ti v :=
    List.set_comm _ _ _ hne
  apply List.ext_getElem
  · rw [updateRec_length, updateRec_length, updateRec_length, updateRec_length]
  · intro k h1 h2
    have e1 : (updateRec (updateRec s.tree 0 0 (s.n - 1) ti v) 0 0 (s.n - 1) tj w)[k] =
        getNode (updateRec (updateRec s.tree 0 0 (s.n - 1) ti v) 0 0 (s.n - 1) tj w) k :=
      (List.getD_eq_getElem _ Node.empty h1).symm
    have e2 : (updateRec (updateRec s.tree 0 0 (s.n - 1) tj w) 0 0 (s.n - 1) ti v)[k] =
        getNode (updateRec (updateRec s.tree 0 0 (s.n - 1) tj w) 0 0 (s.n - 1) ti v) k :=
      (List.getD_eq_getElem _ Node.empty h2).symm
    rw [e1, e2]
    by_cases hmem : k ∈ buildAcc 0 0 (s.n - 1)
    · obtain ⟨lo, hi, c⟩ := mem_buildAcc_covers (by omega) hmem
      rw [g12 _ _ _ c, g21 _ _ _ c, harr]
    · have hout : ∀ tgt, k ∉ updAcc 0 0 (s.n - 1) tgt :=
        fun tgt hk => hmem (updAcc_subset _ hk)
      rw [updateRec_outside (hout tj), updateRec_outside (hout ti),
        updateRec_outside (hout ti), updateRec_outside (hout tj)]

/-
A constant slice has variance zero.
-/

theorem sum_const {xs : List ℚ} {c : ℚ} (h : ∀ x ∈ xs, x = c) :
    xs.sum = (xs.length : ℚ) * c := by
  induction xs with
  | nil => simp
  | cons a t ih =>
      have ha : a = c := h a (by simp)
      have ht : ∀ x ∈ t, x = c := fun x hx => h x (by simp [hx])
      simp only [List.sum_cons, List.length_cons, ih ht, ha]
      push_cast
      ring

theorem listVar_const {xs : List ℚ} {c : ℚ} (h : ∀ x ∈ xs, x = c) : listVar xs = 0 := by
  unfold listVar
  by_cases hlen : xs.length = 0
  · rw [if_pos hlen]
  · rw [if_neg hlen]
    have hk : (xs.length : ℚ) ≠ 0 := Nat.cast_ne_zero.mpr hlen
    have hmean : listMean xs = c := by
      unfold listMean
      rw [if_neg hlen, sum_const h]
      field_simp
    have hzero : (xs.map fun x => (x - listMean xs) * (x - listMean xs)).sum = 0 := by
      apply List.sum_eq_zero
      intro x hx
      obtain ⟨y, hy, rfl⟩ := List.mem_map.mp hx
      rw [hmean, h y hy]
      ring
    rw [hzero, zero_div]

/-
Aliasing model for claim C9.  Python lists are mutable objects and the pure
lists above are immutable values, so the two defensive copies of the source
(self.arr = arr[:] in __init__ and return self.arr[:] in get_array) are
modelled explicitly with an addressed store of list objects: mutating a list
object is writing its cell in the store.
-/

/-- Store of Python list objects; an address is an index into cells. -/
structure PyStore where
  cells : List (List ℚ)
deriving DecidableEq, Repr

/-- Content of the list object at address a (empty for a dangling address,
which never occurs in the statements below). -/
def PyStore.read (h : PyStore) (a : ℕ) : List ℚ := h.cells.getD a []

/-- In-place mutation of the list object at address a. -/
def PyStore.write (h : PyStore) (a : ℕ) (xs : List ℚ) : PyStore := ⟨h.cells.set a xs⟩

/-- Allocation of a new list object; returns the new store and the fresh
address. -/
def PyStore.alloc (h : PyStore) (xs : List ℚ) : PyStore × ℕ :=
  (⟨h.cells ++ [xs]⟩, h.cells.length)

/-- A tree object whose backing sequence self.arr lives in the store at
address arrRef; n and the node list are plain values because the source
never hands out references to them. -/
structure STRef where
  arrRef : ℕ
  n : ℕ
  tree : List Node
deriving DecidableEq, Repr

/-- SegmentTreeVariance.__init__ at store level: reads the input list at
address a, allocates the private copy self.arr = arr[:] and builds the same
node list as the value-level constructor. -/
def mkTreeRef (h : PyStore) (a : ℕ) : PyStore × STRef :=
  let xs := h.read a
  let p := h.alloc xs
  (p.1, ⟨p.2, xs.length, (mkTree xs).tree⟩)

/-- get_array at store level: allocates a fresh copy of the backing cell
(return self.arr[:]) and returns its address. -/
def STRef.get_arrayRef (s : STRef) (h : PyStore) : PyStore × ℕ :=
  h.alloc (h.read s.arrRef)

/-- update at store level: validates, then overwrites the backing cell in
place and repairs the node list. -/
def STRef.updateRef (s : STRef) (h : PyStore) (index : ℤ) (v : ℚ) :
    Except String (PyStore × STRef) :=
  if index < 0 ∨ (s.n : ℤ) ≤ index then Except.error "Indice fuera de rango"
  else Except.ok (h.write s.arrRef ((h.read s.arrRef).set index.toNat v),
    ⟨s.arrRef, s.n, updateRec s.tree 0 0 (s.n - 1) index.toNat v⟩)

/-- The tree state an operation sees at store level: the backing cell content
together with the value fields. -/
def STRef.toValue (s : STRef) (h : PyStore) : SegmentTreeVariance :=
  ⟨h.read s.arrRef, s.n, s.tree⟩

theorem pyread_write_ne (h : PyStore) (a b : ℕ) (xs : List ℚ) (hne : b ≠ a) :
    (h.write a xs).read b = h.read b := by
  unfold PyStore.read PyStore.write
  rcases Nat.lt_or_ge b h.cells.length with h1 | h1
  · rw [List.getD_eq_getElem _ _ (by simpa using h1), List.getD_eq_getElem _ _ h1,
      List.getElem_set_ne (by omega)]
  · rw [List.getD_eq_default _ _ (by simpa using h1), List.getD_eq_default _ _ h1]

theorem pyread_alloc_fresh (h : PyStore) (xs : List ℚ) :
    (h.alloc xs).1.read (h.alloc xs).2 = xs := by
  unfold PyStore.read PyStore.alloc
  rw [List.getD_append_right _ _ _ _ (le_refl _)]
  simp

theorem pyread_alloc_old (h : PyStore) (xs : List ℚ) (b : ℕ) (hb : b < h.cells.length) :
    (h.alloc xs).1.read b = h.read b := by
  unfold PyStore.read PyStore.alloc
  rw [List.getD_append _ _ _ _ hb]

/-
The claims.
-/

theorem query_guard_iff (cond : Prop) [Decidable cond] (msg : String) (val : ℚ) :
    (∃ e, (if cond then Except.error (ε := String) msg else Except.ok val) =
      Except.error e) ↔ cond := by
  by_cases hc : cond
  · rw [if_pos hc]
    exact ⟨fun _ => hc, fun _ => ⟨msg, rfl⟩⟩
  · rw [if_neg hc]
    constructor
    · rintro ⟨e, he⟩
      cases he
    · intro hcond
      exact absurd hcond hc

/-- C4: query_sum, query_mean and query_variance fail with the invalid-range
error exactly when lo > hi, or lo < 0, or hi ≥ n; in particular every query
on an empty tree fails.  The queries are pure functions of the state (the
source performs no write in any query path and raises before traversing), so
the tree state is unchanged on error. -/
theorem C4_query_validation (s : SegmentTreeVariance) (lo hi : ℤ) :
    ((∃ e, s.query_sum lo hi = Except.error e) ↔
      (hi < lo ∨ lo < 0 ∨ (s.n : ℤ) ≤ hi)) ∧
    ((∃ e, s.query_mean lo hi = Except.error e) ↔
      (hi < lo ∨ lo < 0 ∨ (s.n : ℤ) ≤ hi)) ∧
    ((∃ e, s.query_variance lo hi = Except.error e) ↔
      (hi < lo ∨ lo < 0 ∨ (s.n : ℤ) ≤ hi)) ∧
    (s.n = 0 → ∃ e, s.query_sum lo hi = Except.error e) := by
  have h1 : (∃ e, s.query_sum lo hi = Except.error e) ↔
      (hi < lo ∨ lo < 0 ∨ (s.n : ℤ) ≤ hi) := by
    unfold SegmentTreeVariance.query_sum
    exact (query_guard_iff _ _ _).trans (by omega)
  have h2 : (∃ e, s.query_mean lo hi = Except.error e) ↔
      (hi < lo ∨ lo < 0 ∨ (s.n : ℤ) ≤ hi) := by
    unfold SegmentTreeVariance.query_mean
    exact (query_guard_iff _ _ _).trans (by omega)
  have h3 : (∃ e, s.query_variance lo hi = Except.error e) ↔
      (hi < lo ∨ lo < 0 ∨ (s.n : ℤ) ≤ hi) := by
    unfold SegmentTreeVariance.query_variance
    exact (query_guard_iff _ _ _).trans (by omega)
  exact ⟨h1, h2, h3, fun h0 => h1.mpr (by omega)⟩

/-- C4 witness at a concrete empty tree and range. -/
theorem C4_witness :
    ((∃ e, (mkTree ([] : List ℚ)).query_sum 0 0 = Except.error e) ↔
      ((0 : ℤ) < 0 ∨ (0 : ℤ) < 0 ∨ ((mkTree ([] : List ℚ)).n : ℤ) ≤ 0)) ∧
    ((∃ e, (mkTree ([] : List ℚ)).query_mean 0 0 = Except.error e) ↔
      ((0 : ℤ) < 0 ∨ (0 : ℤ) < 0 ∨ ((mkTree ([] : List ℚ)).n : ℤ) ≤ 0)) ∧
    ((∃ e, (mkTree ([] : List ℚ)).query_variance 0 0 = Except.error e) ↔
      ((0 : ℤ) < 0 ∨ (0 : ℤ) < 0 ∨ ((mkTree ([] : List ℚ)).n : ℤ) ≤ 0)) ∧
    ((mkTree ([] : List ℚ)).n = 0 →
      ∃ e, (mkTree ([] : List ℚ)).query_sum 0 0 = Except.error e) :=
  C4_query_validation (mkTree []) 0 0

/-- C5: update fails with the out-of-range error exactly when index < 0 or
index ≥ n, and on error no state is produced at all — a successful result
exists only for a valid index, and then it is exactly the in-range write
(the source raises before the first assignment). -/
theorem C5_update_validation (s : SegmentTreeVariance) (i : ℤ) (v : ℚ) :
    ((∃ e, s.update i v = Except.error e) ↔ (i < 0 ∨ (s.n : ℤ) ≤ i)) ∧
    (∀ s2, s.update i v = Except.ok s2 → 0 ≤ i ∧ i < (s.n : ℤ) ∧
      s2 = ⟨s.arr.set i.toNat v, s.n, updateRec s.tree 0 0 (s.n - 1) i.toNat v⟩) := by
  by_cases hc : i < 0 ∨ (s.n : ℤ) ≤ i
  · refine ⟨⟨fun _ => hc, fun _ => ⟨_, update_err v hc⟩⟩, ?_⟩
    intro s2 h2
    rw [update_err v hc] at h2
    cases h2
  · refine ⟨⟨?_, fun h => absurd h hc⟩, ?_⟩
    · rintro ⟨e, he⟩
      rw [update_ok v (by omega) (by omega)] at he
      cases he
    · intro s2 h2
      rw [update_ok v (by omega) (by omega)] at h2
      injection h2 with h3
      exact ⟨by omega, by omega, h3.symm⟩

/-- C5 witness at a concrete tree and a negative index. -/
theorem C5_witness :
    ((∃ e, (mkTree ([1] : List ℚ)).update (-1) 3 = Except.error e) ↔
      ((-1 : ℤ) < 0 ∨ ((mkTree ([1] : List ℚ)).n : ℤ) ≤ (-1 : ℤ))) ∧
    (∀ s2, (mkTree ([1] : List ℚ)).update (-1) 3 = Except.ok s2 →
      0 ≤ (-1 : ℤ) ∧ (-1 : ℤ) < ((mkTree ([1] : List ℚ)).n : ℤ) ∧
      s2 = ⟨(mkTree ([1] : List ℚ)).arr.set (-1 : ℤ).toNat 3,
        (mkTree ([1] : List ℚ)).n,
        updateRec (mkTree ([1] : List ℚ)).tree 0 0 ((mkTree ([1] : List ℚ)).n - 1)
          (-1 : ℤ).toNat 3⟩) :=
  C5_update_validation (mkTree [1]) (-1) 3

/-- C6: the merge operator is associative and commutative fieldwise in exact
arithmetic, and the empty aggregate (sum 0, sum of squares 0, count 0) is a
two-sided identity for it. -/
theorem C6_merge_monoid :
    (∀ a b c : Node, mergeNodes (mergeNodes a b) c = mergeNodes a (mergeNodes b c)) ∧
    (∀ a b : Node, mergeNodes a b = mergeNodes b a) ∧
    (∀ x : Node, mergeNodes Node.empty x = x ∧ mergeNodes x Node.empty = x) :=
  ⟨mergeNodes_assoc, mergeNodes_comm,
    fun x => ⟨mergeNodes_empty_left x, mergeNodes_empty_right x⟩⟩

/-- C1: on the tree built from any sequence, for every valid range
query_sum returns the direct sum of the slice, query_mean that sum divided
by hi - lo + 1, and query_variance the population variance of the slice
computed directly (clamped at zero), in exact rational arithmetic. -/
theorem C1_query_statistics (arr : List ℚ) (lo hi : ℕ) (h1 : lo ≤ hi)
    (h2 : hi < arr.length) :
    (mkTree arr).query_sum lo hi = Except.ok (seg arr lo hi).sum ∧
    (mkTree arr).query_mean lo hi =
      Except.ok ((seg arr lo hi).sum / ((hi - lo + 1 : ℕ) : ℚ)) ∧
    (mkTree arr).query_variance lo hi = Except.ok (max 0 (listVar (seg arr lo hi))) := by
  have hw := wf_mkTree arr
  have hn : hi < (mkTree arr).n := by
    rw [mkTree_n]
    exact h2
  refine ⟨?_, ?_, ?_⟩
  · rw [query_sum_ok hw h1 hn, mkTree_arr]
  · rw [query_mean_ok hw h1 hn, mkTree_arr]
    unfold listMean
    rw [if_neg (by rw [seg_length h1 h2]; omega), seg_length h1 h2]
    have e : hi + 1 - lo = hi - lo + 1 := by omega
    rw [e]
  · rw [query_variance_ok hw h1 hn, mkTree_arr, max_eq_right (listVar_nonneg _)]

/-- C1 witness on the example sequence of the repository. -/
theorem C1_witness :
    (0 ≤ 3 ∧ 3 < ([4, 8, 6, 2] : List ℚ).length) ∧
    ((mkTree ([4, 8, 6, 2] : List ℚ)).query_sum 0 3 =
      Except.ok (seg ([4, 8, 6, 2] : List ℚ) 0 3).sum ∧
    (mkTree ([4, 8, 6, 2] : List ℚ)).query_mean 0 3 =
      Except.ok ((seg ([4, 8, 6, 2] : List ℚ) 0 3).sum / ((3 - 0 + 1 : ℕ) : ℚ)) ∧
    (mkTree ([4, 8, 6, 2] : List ℚ)).query_variance 0 3 =
      Except.ok (max 0 (listVar (seg ([4, 8, 6, 2] : List ℚ) 0 3)))) :=
  ⟨⟨by norm_num, by norm_num⟩,
    C1_query_statistics [4, 8, 6, 2] 0 3 (by norm_num) (by norm_num)⟩

/-- C7: query_variance never returns a negative value on any state; on a
well formed tree every valid range whose elements are all equal — in
particular every single-element range — gives exactly 0; and
Node.get_variance is 0 for count 0 and the clamped compact formula
otherwise. -/
theorem C7_variance_nonneg (s : SegmentTreeVariance) :
    (∀ lo hi : ℤ, ∀ x : ℚ, s.query_variance lo hi = Except.ok x → 0 ≤ x) ∧
    (Wf s → ∀ lo hi : ℕ, lo ≤ hi → hi < s.n →
      (∀ c : ℚ, (∀ x ∈ seg s.arr lo hi, x = c) →
        s.query_variance lo hi = Except.ok 0) ∧
      (lo = hi → s.query_variance lo hi = Except.ok 0)) ∧
    (∀ nd : Node,
      (nd.count = 0 → nd.get_variance = 0) ∧
      (nd.count ≠ 0 → nd.get_variance =
        max 0 (nd.suma_cuadrados / (nd.count : ℚ) -
          (nd.suma / (nd.count : ℚ)) * (nd.suma / (nd.count : ℚ))))) := by
  refine ⟨?_, ?_, ?_⟩
  · intro lo hi x hx
    unfold SegmentTreeVariance.query_variance at hx
    by_cases hc : lo < 0 ∨ (s.n : ℤ) ≤ hi ∨ hi < lo
    · rw [if_pos hc] at hx
      cases hx
    · rw [if_neg hc] at hx
      injection hx with h
      rw [← h]
      exact get_variance_nonneg _
  · intro hw lo hi h1 h2
    constructor
    · intro c hc
      rw [query_variance_ok hw h1 h2, listVar_const hc]
    · intro he
      subst he
      rw [query_variance_ok hw h1 h2]
      have hlo : lo < s.arr.length := by
        have := hw.1
        omega
      rw [listVar_const (c := s.arr.getD lo 0) (by rw [seg_single hlo]; simp)]
  · intro nd
    constructor
    · intro h
      unfold Node.get_variance
      rw [if_pos h]
    · intro h
      unfold Node.get_variance
      rw [if_neg h]

/-- C7 witness: the constant sequence 5,5,5,5 has range variance exactly 0. -/
theorem C7_witness :
    Wf (mkTree ([5, 5, 5, 5] : List ℚ)) ∧ (0 ≤ 3 ∧ 3 < (mkTree ([5, 5, 5, 5] : List ℚ)).n) ∧
    (mkTree ([5, 5, 5, 5] : List ℚ)).query_variance 0 3 = Except.ok 0 :=
  ⟨wf_mkTree _, ⟨by norm_num, by rw [mkTree_n]; norm_num⟩,
    ((C7_variance_nonneg (mkTree [5, 5, 5, 5])).2.1 (wf_mkTree _) 0 3 (by norm_num)
        (by rw [mkTree_n]; norm_num)).1 5
      (by rw [mkTree_arr]; decide)⟩

/-- C8: construction allocates exactly 4 n node slots, and every heap index
touched by the build, update and query recursions from the root of a tree
over n ≥ 1 elements is strictly below 4 n.  For n = 0 the constructor skips
the build and claims C4 and C5 show every update and query is rejected, so
nothing is accessed at all. -/
theorem C8_capacity (arr : List ℚ) :
    (mkTree arr).tree.length = 4 * arr.length ∧
    (∀ n : ℕ, 1 ≤ n →
      (∀ j ∈ buildAcc 0 0 (n - 1), j < 4 * n) ∧
      (∀ tgt j, j ∈ updAcc 0 0 (n - 1) tgt → j < 4 * n) ∧
      (∀ ql qr j, j ∈ qryAcc 0 0 (n - 1) ql qr → j < 4 * n)) := by
  constructor
  · have hw := wf_mkTree arr
    rw [hw.2.1, mkTree_n]
  · intro n hn
    have hb := @buildAcc_lt 0 0 (n - 1) (4 * n) (by omega) (fits_root hn)
    exact ⟨hb, fun tgt j hj => hb j (updAcc_subset j hj),
      fun ql qr j hj => hb j (qryAcc_subset (by omega) j hj)⟩

/-- C8 witness on a two-element tree: capacity 4 * 2 and the root index is
in every access list and below capacity. -/
theorem C8_witness :
    (mkTree ([1, 2] : List ℚ)).tree.length = 4 * ([1, 2] : List ℚ).length ∧
    (0 ∈ buildAcc 0 0 (2 - 1) ∧ 0 < 4 * 2) ∧
    (0 ∈ updAcc 0 0 (2 - 1) 1 ∧ 0 < 4 * 2) ∧
    (0 ∈ qryAcc 0 0 (2 - 1) 0 1 ∧ 0 < 4 * 2) := by
  have hmem1 : 0 ∈ buildAcc 0 0 (2 - 1) := by
    rw [buildAcc.eq_def]
    simp
  have hmem2 : 0 ∈ updAcc 0 0 (2 - 1) 1 := by
    rw [updAcc.eq_def]
    simp
  have hmem3 : 0 ∈ qryAcc 0 0 (2 - 1) 0 1 := by
    rw [qryAcc.eq_def]
    simp
  exact ⟨(C8_capacity [1, 2]).1,
    ⟨hmem1, ((C8_capacity [1, 2]).2 2 (by norm_num)).1 0 hmem1⟩,
    ⟨hmem2, ((C8_capacity [1, 2]).2 2 (by norm_num)).2.1 1 0 hmem2⟩,
    ⟨hmem3, ((C8_capacity [1, 2]).2 2 (by norm_num)).2.2 0 1 0 hmem3⟩⟩

/-- C2: after a successful update(i, v) on a well formed tree, get_array
reads back v at position i, every valid range query returns the statistic of
the updated sequence (so every range containing i reflects v), and every
valid query on a range entirely excluding i returns exactly the value it
returned before the update. -/
theorem C2_update_consistency (s : SegmentTreeVariance) (hw : Wf s) (i : ℤ) (v : ℚ)
    (h0 : 0 ≤ i) (hn : i < (s.n : ℤ)) :
    ∃ s2, s.update i v = Except.ok s2 ∧
      s2.get_array.getD i.toNat 0 = v ∧
      (∀ lo hi : ℕ, lo ≤ hi → hi < s.n →
        s2.query_sum lo hi = Except.ok (seg (s.arr.set i.toNat v) lo hi).sum ∧
        s2.query_mean lo hi = Except.ok (listMean (seg (s.arr.set i.toNat v) lo hi)) ∧
        s2.query_variance lo hi = Except.ok (listVar (seg (s.arr.set i.toNat v) lo hi))) ∧
      (∀ lo hi : ℕ, lo ≤ hi → hi < s.n → (hi < i.toNat ∨ i.toNat < lo) →
        s2.query_sum lo hi = s.query_sum lo hi ∧
        s2.query_mean lo hi = s.query_mean lo hi ∧
        s2.query_variance lo hi = s.query_variance lo hi) := by
  have hw2 := wf_update v hw h0 hn
  refine ⟨⟨s.arr.set i.toNat v, s.n, updateRec s.tree 0 0 (s.n - 1) i.toNat v⟩,
    update_ok v h0 hn, ?_, ?_, ?_⟩
  · show (s.arr.set i.toNat v).getD i.toNat 0 = v
    apply getD_set_self
    have := hw.1
    omega
  · intro lo hi h1 h2
    exact ⟨query_sum_ok hw2 h1 h2, query_mean_ok hw2 h1 h2, query_variance_ok hw2 h1 h2⟩
  · intro lo hi h1 h2 hex
    have hseg : seg (s.arr.set i.toNat v) lo hi = seg s.arr lo hi :=
      seg_set_outside v (by omega)
    refine ⟨?_, ?_, ?_⟩
    · rw [query_sum_ok hw2 h1 h2, query_sum_ok hw h1 h2]
      show Except.ok (seg (s.arr.set i.toNat v) lo hi).sum = _
      rw [hseg]
    · rw [query_mean_ok hw2 h1 h2, query_mean_ok hw h1 h2]
      show Except.ok (listMean (seg (s.arr.set i.toNat v) lo hi)) = _
      rw [hseg]
    · rw [query_variance_ok hw2 h1 h2, query_variance_ok hw h1 h2]
      show Except.ok (listVar (seg (s.arr.set i.toNat v) lo hi)) = _
      rw [hseg]

/-- C2 witness: update position 1 of the tree over 1, 2, 3 to 10. -/
theorem C2_witness :
    Wf (mkTree ([1, 2, 3] : List ℚ)) ∧ 0 ≤ (1 : ℤ) ∧
    (1 : ℤ) < ((mkTree ([1, 2, 3] : List ℚ)).n : ℤ) ∧
    (∃ s2, (mkTree ([1, 2, 3] : List ℚ)).update 1 10 = Except.ok s2 ∧
      s2.get_array.getD (1 : ℤ).toNat 0 = 10 ∧
      (∀ lo hi : ℕ, lo ≤ hi → hi < (mkTree ([1, 2, 3] : List ℚ)).n →
        s2.query_sum lo hi = Except.ok
          (seg ((mkTree ([1, 2, 3] : List ℚ)).arr.set (1 : ℤ).toNat 10) lo hi).sum ∧
        s2.query_mean lo hi = Except.ok
          (listMean (seg ((mkTree ([1, 2, 3] : List ℚ)).arr.set (1 : ℤ).toNat 10) lo hi)) ∧
        s2.query_variance lo hi = Except.ok
          (listVar (seg ((mkTree ([1, 2, 3] : List ℚ)).arr.set (1 : ℤ).toNat 10) lo hi))) ∧
      (∀ lo hi : ℕ, lo ≤ hi → hi < (mkTree ([1, 2, 3] : List ℚ)).n →
        (hi < (1 : ℤ).toNat ∨ (1 : ℤ).toNat < lo) →
        s2.query_sum lo hi = (mkTree ([1, 2, 3] : List ℚ)).query_sum lo hi ∧
        s2.query_mean lo hi = (mkTree ([1, 2, 3] : List ℚ)).query_mean lo hi ∧
        s2.query_variance lo hi = (mkTree ([1, 2, 3] : List ℚ)).query_variance lo hi)) :=
  ⟨wf_mkTree _, by norm_num, by rw [mkTree_n]; norm_num,
    C2_update_consistency (mkTree [1, 2, 3]) (wf_mkTree _) 1 10 (by norm_num)
      (by rw [mkTree_n]; norm_num)⟩

/-- C3: in every reachable nonempty tree state, each heap position j that
covers the interval [lo, hi] in the root descent stores count = hi - lo + 1;
in particular the root stores count = n. -/
theorem C3_count_invariant (s : SegmentTreeVariance) (h : Reachable s) (hn : 1 ≤ s.n)
    (j lo hi : ℕ) (c : Covers 0 0 (s.n - 1) j lo hi) :
    (getNode s.tree j).count = hi - lo + 1 ∧ (getNode s.tree 0).count = s.n := by
  obtain ⟨hlen, htlen, hg⟩ := wf_reachable h
  have hb := covers_bounds c (by omega)
  constructor
  · rw [hg hn _ _ _ c]
    show (seg s.arr lo hi).length = hi - lo + 1
    rw [seg_length (by omega) (by omega)]
    omega
  · rw [hg hn _ _ _ (Covers.refl _ _ _)]
    show (seg s.arr 0 (s.n - 1)).length = s.n
    rw [seg_length (by omega) (by omega)]
    omega

/-- C3 witness: the root of the tree over 1, 2 has count 2. -/
theorem C3_witness :
    Reachable (mkTree ([1, 2] : List ℚ)) ∧ 1 ≤ (mkTree ([1, 2] : List ℚ)).n ∧
    Covers 0 0 ((mkTree ([1, 2] : List ℚ)).n - 1) 0 0 ((mkTree ([1, 2] : List ℚ)).n - 1) ∧
    ((getNode (mkTree ([1, 2] : List ℚ)).tree 0).count =
        (mkTree ([1, 2] : List ℚ)).n - 1 - 0 + 1 ∧
      (getNode (mkTree ([1, 2] : List ℚ)).tree 0).count = (mkTree ([1, 2] : List ℚ)).n) :=
  ⟨Reachable.build _, by rw [mkTree_n]; norm_num, Covers.refl _ _ _,
    C3_count_invariant _ (Reachable.build _) (by rw [mkTree_n]; norm_num) 0 0 _
      (Covers.refl _ _ _)⟩

/-- C10: two successful updates at distinct valid indices commute: both
orders succeed and produce identical final states, backing sequence and
every node slot alike. -/
theorem C10_update_comm (s : SegmentTreeVariance) (hw : Wf s) (i j : ℤ) (v w : ℚ)
    (hne : i ≠ j) (hi0 : 0 ≤ i) (hin : i < (s.n : ℤ)) (hj0 : 0 ≤ j)
    (hjn : j < (s.n : ℤ)) :
    ∃ s1 s2 s12 s21,
      s.update i v = Except.ok s1 ∧ s1.update j w = Except.ok s12 ∧
      s.update j w = Except.ok s2 ∧ s2.update i v = Except.ok s21 ∧ s12 = s21 := by
  have hne2 : i.toNat ≠ j.toNat := by omega
  refine ⟨_, _, _, _, update_ok v hi0 hin, update_ok w hj0 hjn, update_ok w hj0 hjn,
    update_ok v hi0 hin, ?_⟩
  show SegmentTreeVariance.mk ((s.arr.set i.toNat v).set j.toNat w) s.n
      (updateRec (updateRec s.tree 0 0 (s.n - 1) i.toNat v) 0 0 (s.n - 1) j.toNat w) =
    SegmentTreeVariance.mk ((s.arr.set j.toNat w).set i.toNat v) s.n
      (updateRec (updateRec s.tree 0 0 (s.n - 1) j.toNat w) 0 0 (s.n - 1) i.toNat v)
  rw [List.set_comm v w s.arr hne2,
    updateRec_double_comm hw hne2 (by omega) (by omega) v w]

/-- C10 witness: updates at positions 0 and 2 of the tree over 1, 2, 3. -/
theorem C10_witness :
    Wf (mkTree ([1, 2, 3] : List ℚ)) ∧ (0 : ℤ) ≠ 2 ∧ 0 ≤ (0 : ℤ) ∧
    (0 : ℤ) < ((mkTree ([1, 2, 3] : List ℚ)).n : ℤ) ∧ 0 ≤ (2 : ℤ) ∧
    (2 : ℤ) < ((mkTree ([1, 2, 3] : List ℚ)).n : ℤ) ∧
    (∃ s1 s2 s12 s21,
      (mkTree ([1, 2, 3] : List ℚ)).update 0 5 = Except.ok s1 ∧
      s1.update 2 7 = Except.ok s12 ∧
      (mkTree ([1, 2, 3] : List ℚ)).update 2 7 = Except.ok s2 ∧
      s2.update 0 5 = Except.ok s21 ∧ s12 = s21) :=
  ⟨wf_mkTree _, by norm_num, by norm_num, by rw [mkTree_n]; norm_num, by norm_num,
    by rw [mkTree_n]; norm_num,
    C10_update_comm (mkTree [1, 2, 3]) (wf_mkTree _) 0 2 5 7 (by norm_num) (by norm_num)
      (by rw [mkTree_n]; norm_num) (by norm_num) (by rw [mkTree_n]; norm_num)⟩

theorem pyread_write_self (h : PyStore) (a : ℕ) (xs : List ℚ) (ha : a < h.cells.length) :
    (h.write a xs).read a = xs := by
  unfold PyStore.read PyStore.write
  rw [List.getD_eq_getElem _ _ (by simpa using ha), List.getElem_set_self]

/-- C9: the construction stores a private copy of the input list and
get_array returns a fresh copy of the backing sequence (reflecting the
updates applied, which overwrite the backing cell), so mutating the returned
list changes neither the backing sequence nor any query result, and mutating
the original input list after construction changes neither of them either. -/
theorem C9_defensive_copy (h : PyStore) (a : ℕ) (ha : a < h.cells.length)
    (h1 : PyStore) (s : STRef) (heq : mkTreeRef h a = (h1, s)) :
    (s.arrRef ≠ a ∧ h1.read s.arrRef = h.read a) ∧
    (∀ ys, (h1.write a ys).read s.arrRef = h1.read s.arrRef ∧
      s.toValue (h1.write a ys) = s.toValue h1) ∧
    (∀ h0 : PyStore, (s.get_arrayRef h0).1.read (s.get_arrayRef h0).2 = h0.read s.arrRef) ∧
    (∀ h2 c, s.get_arrayRef h1 = (h2, c) →
      c ≠ s.arrRef ∧
      ∀ ys, (h2.write c ys).read s.arrRef = h2.read s.arrRef ∧
        s.toValue (h2.write c ys) = s.toValue h2) ∧
    (∀ i v h2 s2, s.updateRef h1 i v = Except.ok (h2, s2) →
      s2.arrRef = s.arrRef ∧ h2.read s2.arrRef = (h1.read s.arrRef).set i.toNat v) := by
  have eh : h1 = (mkTreeRef h a).1 := (congrArg Prod.fst heq).symm
  have es : s = (mkTreeRef h a).2 := (congrArg Prod.snd heq).symm
  subst eh
  subst es
  refine ⟨⟨?_, ?_⟩, ?_, ?_, ?_, ?_⟩
  · show h.cells.length ≠ a
    omega
  · exact pyread_alloc_fresh h (h.read a)
  · intro ys
    have hne : (mkTreeRef h a).2.arrRef ≠ a := by
      show h.cells.length ≠ a
      omega
    exact ⟨pyread_write_ne _ a _ ys hne, by
      unfold STRef.toValue
      rw [pyread_write_ne _ a _ ys hne]⟩
  · intro h0
    exact pyread_alloc_fresh h0 _
  · intro h2 c hq
    have eh2 : h2 = ((mkTreeRef h a).2.get_arrayRef (mkTreeRef h a).1).1 :=
      (congrArg Prod.fst hq).symm
    have ec : c = ((mkTreeRef h a).2.get_arrayRef (mkTreeRef h a).1).2 :=
      (congrArg Prod.snd hq).symm
    subst eh2
    subst ec
    have hne : (mkTreeRef h a).2.arrRef ≠
        ((mkTreeRef h a).2.get_arrayRef (mkTreeRef h a).1).2 := by
      show h.cells.length ≠ (h.cells ++ [h.read a]).length
      rw [List.length_append]
      simp
    refine ⟨fun e => hne e.symm, ?_⟩
    intro ys
    exact ⟨pyread_write_ne _ _ _ ys hne, by
      unfold STRef.toValue
      rw [pyread_write_ne _ _ _ ys hne]⟩
  · intro i v h2 s2 hu
    unfold STRef.updateRef at hu
    split at hu
    · cases hu
    · injection hu with hu2
      have eh2 : h2 = ((mkTreeRef h a).1.write (mkTreeRef h a).2.arrRef
          (((mkTreeRef h a).1.read (mkTreeRef h a).2.arrRef).set i.toNat v)) :=
        (congrArg Prod.fst hu2).symm
      have es2 : s2 = ⟨(mkTreeRef h a).2.arrRef, (mkTreeRef h a).2.n,
          updateRec (mkTreeRef h a).2.tree 0 0 ((mkTreeRef h a).2.n - 1) i.toNat v⟩ :=
        (congrArg Prod.snd hu2).symm
      subst eh2
      subst es2
      refine ⟨rfl, ?_⟩
      show ((mkTreeRef h a).1.write (mkTreeRef h a).2.arrRef
          (((mkTreeRef h a).1.read (mkTreeRef h a).2.arrRef).set i.toNat v)).read
          (mkTreeRef h a).2.arrRef =
        ((mkTreeRef h a).1.read (mkTreeRef h a).2.arrRef).set i.toNat v
      apply pyread_write_self
      show h.cells.length < (h.cells ++ [h.read a]).length
      rw [List.length_append]
      simp

/-- C9 witness at a one-cell store holding the list 1, 2. -/
theorem C9_witness :
    0 < (PyStore.mk [[1, 2]]).cells.length ∧
    mkTreeRef (PyStore.mk [[1, 2]]) 0 =
      ((mkTreeRef (PyStore.mk [[1, 2]]) 0).1, (mkTreeRef (PyStore.mk [[1, 2]]) 0).2) ∧
    (((mkTreeRef (PyStore.mk [[1, 2]]) 0).2.arrRef ≠ 0 ∧
      (mkTreeRef (PyStore.mk [[1, 2]]) 0).1.read
          (mkTreeRef (PyStore.mk [[1, 2]]) 0).2.arrRef =
        (PyStore.mk [[1, 2]]).read 0) ∧
    (∀ ys, ((mkTreeRef (PyStore.mk [[1, 2]]) 0).1.write 0 ys).read
          (mkTreeRef (PyStore.mk [[1, 2]]) 0).2.arrRef =
        (mkTreeRef (PyStore.mk [[1, 2]]) 0).1.read
          (mkTreeRef (PyStore.mk [[1, 2]]) 0).2.arrRef ∧
      (mkTreeRef (PyStore.mk [[1, 2]]) 0).2.toValue
          ((mkTreeRef (PyStore.mk [[1, 2]]) 0).1.write 0 ys) =
        (mkTreeRef (PyStore.mk [[1, 2]]) 0).2.toValue (mkTreeRef (PyStore.mk [[1, 2]]) 0).1) ∧
    (∀ h0 : PyStore, ((mkTreeRef (PyStore.mk [[1, 2]]) 0).2.get_arrayRef h0).1.read
          ((mkTreeRef (PyStore.mk [[1, 2]]) 0).2.get_arrayRef h0).2 =
        h0.read (mkTreeRef (PyStore.mk [[1, 2]]) 0).2.arrRef) ∧
    (∀ h2 c, (mkTreeRef (PyStore.mk [[1, 2]]) 0).2.get_arrayRef
          (mkTreeRef (PyStore.mk [[1, 2]]) 0).1 = (h2, c) →
      c ≠ (mkTreeRef (PyStore.mk [[1, 2]]) 0).2.arrRef ∧
      ∀ ys, (h2.write c ys).read (mkTreeRef (PyStore.mk [[1, 2]]) 0).2.arrRef =
          h2.read (mkTreeRef (PyStore.mk [[1, 2]]) 0).2.arrRef ∧
        (mkTreeRef (PyStore.mk [[1, 2]]) 0).2.toValue (h2.write c ys) =
          (mkTreeRef (PyStore.mk [[1, 2]]) 0).2.toValue h2) ∧
    (∀ i v h2 s2, (mkTreeRef (PyStore.mk [[1, 2]]) 0).2.updateRef
          (mkTreeRef (PyStore.mk [[1, 2]]) 0).1 i v = Except.ok (h2, s2) →
      s2.arrRef = (mkTreeRef (PyStore.mk [[1, 2]]) 0).2.arrRef ∧
      h2.read s2.arrRef = ((mkTreeRef (PyStore.mk [[1, 2]]) 0).1.read
          (mkTreeRef (PyStore.mk [[1, 2]]) 0).2.arrRef).set i.toNat v)) :=
  ⟨by norm_num, rfl,
    C9_defensive_copy (PyStore.mk [[1, 2]]) 0 (by norm_num) _ _ rfl⟩
